import Mathlib

/-!
# Verification of the adaptive hierarchical-fitting core (`gsHFitting.h`)

A shallow embedding of the refinement-selection algorithm of
`gsHFitting<d, T>` (adaptive fitting with hierarchical splines):

* the basis collaborator (`gsHTensorBasis` / `gsTHBSplineBasis`) is kept
  opaque, as a record of the query functions the core actually calls
  (`maxLevel`, per-dimension knot-interval search `uFind`, the structural
  range query `query3`, and `numBreaks`);
* coefficients (type parameter `T`) are modelled by `ℚ`;
* `unsigned` index arithmetic is modelled by `ℕ`; the only subtraction the
  source performs on indices is explicitly guarded (`lowIndex > m_ext`),
  and break-point counts of a well-formed basis are at least `2`, so no
  wrap-around behaviour is reachable under the stated hypotheses;
* the flat `std::vector<unsigned>` of marked cells is a list of
  `d`-tuples (the source only ever appends records of exactly `d` entries
  and scans it in strides of `d`);
* `std::nth_element` followed by `*pos` is modelled by indexing into the
  ascending sort of the data, which is its postcondition; dereferencing
  an out-of-range position (past-the-end iterator) is modelled by
  `Option.none`;
* the external fit (`compute` + `computeErrors`) replaces the error field
  and statistics as a function of the current basis; the state carries
  ghost counters for the number of fit and refinement invocations.
-/

namespace GismoHFitting

/-- A finest-level cell: one `unsigned` break-interval index per parametric
dimension (`gsVector<unsigned, d>` in the source). -/
abbrev Cell (d : ℕ) := Fin d → ℕ

/-- The query interface of the hierarchical basis collaborator, as consumed
by `gsHFitting` (the basis internals are out of scope). -/
structure HBasis (d : ℕ) where
  /-- `basis->maxLevel()`: current deepest structural level. -/
  maxLevel : ℕ
  /-- `kv.uFind(x).uIndex()` on the level-`maxLevel` knot vector of
  dimension `dim`: index of the break interval containing `x`. -/
  uFind : Fin d → ℚ → ℕ
  /-- `basis->tree().query3(lo, hi, lvlBound)`: structural range query. -/
  query3 : Cell d → Cell d → ℕ → ℕ
  /-- `basis->numBreaks(lvl, dim)`: break-point count at a level. -/
  numBreaks : ℕ → Fin d → ℕ

/-- Well-formedness of the basis collaborator: the finest-level locator
returns in-range interval indices, and consecutive levels are related by
exact dyadic refinement (each level doubles the cell count), the implicit
invariant the source's shift arithmetic relies on. -/
structure HBasis.WF {d : ℕ} (B : HBasis d) : Prop where
  uFind_lt : ∀ (i : Fin d) (x : ℚ), B.uFind i x < B.numBreaks B.maxLevel i - 1
  dyadic : ∀ (lvl : ℕ) (i : Fin d),
    B.numBreaks (lvl + 1) i - 1 = 2 * (B.numBreaks lvl i - 1)

variable {d : ℕ}

/-- The `a_cell` loop of `appendBox`: locate the parameter point in the
finest-level grid, one knot-interval search per dimension. -/
def locateCell (B : HBasis d) (parameter : Fin d → ℚ) : Cell d :=
  fun dim => B.uFind dim (parameter dim)

/-- `cell_lvl = basis->tree().query3(a_cell, a_cell_upp, maxLvl) + 1` with
`a_cell_upp = a_cell + Ones`. -/
def cellLevel (B : HBasis d) (a_cell : Cell d) : ℕ :=
  B.query3 a_cell (fun i => a_cell i + 1) B.maxLevel + 1

/-- The `lowIndex` computation of `appendBox`: reproject the finest-level
index onto level `cell_lvl` by a right shift (coarsening) when
`cell_lvl < maxLvl`, and by a left shift otherwise. -/
def lowIndexAt (B : HBasis d) (a_cell : Cell d) (cell_lvl : ℕ) (dim : Fin d) : ℕ :=
  if cell_lvl < B.maxLevel then
    a_cell dim >>> (B.maxLevel - cell_lvl)
  else
    a_cell dim <<< (cell_lvl - B.maxLevel)

/-- `low = (lowIndex > m_ext[dim]) ? (lowIndex - m_ext[dim]) : 0`. -/
def boxLow (B : HBasis d) (ext : Fin d → ℕ) (a_cell : Cell d) (cell_lvl : ℕ)
    (dim : Fin d) : ℕ :=
  if lowIndexAt B a_cell cell_lvl dim > ext dim then
    lowIndexAt B a_cell cell_lvl dim - ext dim
  else 0

/-- `upp = (lowIndex + m_ext[dim] + 1 < numBreaks) ? … : numBreaks` where
`numBreaks = basis->numBreaks(cell_lvl, dim) - 1`. -/
def boxUpp (B : HBasis d) (ext : Fin d → ℕ) (a_cell : Cell d) (cell_lvl : ℕ)
    (dim : Fin d) : ℕ :=
  if lowIndexAt B a_cell cell_lvl dim + ext dim + 1 < B.numBreaks cell_lvl dim - 1 then
    lowIndexAt B a_cell cell_lvl dim + ext dim + 1
  else B.numBreaks cell_lvl dim - 1

/-- The `gsVector<unsigned> box(2*d+1)` filled by `appendBox`:
`box[0] = cell_lvl`, `box[1+dim] = low`, `box[1+d+dim] = upp`. -/
def boxEntries (lvl : ℕ) (low upp : Fin d → ℕ) : Fin (2 * d + 1) → ℕ :=
  fun i =>
    if h0 : i.val = 0 then lvl
    else if h1 : i.val < 1 + d then low ⟨i.val - 1, by omega⟩
    else upp ⟨i.val - 1 - d, by have := i.isLt; omega⟩

/-- The flat record emitted for one newly-seen cell: the entries of the
assembled `box` vector in index order (this is what `append` pushes). -/
def emitBox (B : HBasis d) (ext : Fin d → ℕ) (a_cell : Cell d) : List ℕ :=
  List.ofFn (boxEntries (cellLevel B a_cell)
    (fun dim => boxLow B ext a_cell (cellLevel B a_cell) dim)
    (fun dim => boxUpp B ext a_cell (cellLevel B a_cell) dim))

/-- `isCellAlreadyInserted`: scan the marked-cell container record by
record, counting per-dimension matches, and report a hit when all `d`
entries agree. -/
def isCellAlreadyInserted (a_cell : Cell d) : List (Cell d) → Bool
  | [] => false
  | c :: cs =>
    let commonEntries := (Finset.univ.filter fun col => c col = a_cell col).card
    if commonEntries = d then true else isCellAlreadyInserted a_cell cs

/-- `append(boxes, box)`: push every entry of a record onto a flat list. -/
def append (boxes : List ℕ) (box : List ℕ) : List ℕ :=
  boxes ++ box

/-- `appendBox`: locate the parameter's finest-level cell; if it is new,
record it and emit one refinement box for it. -/
def appendBox (B : HBasis d) (ext : Fin d → ℕ) (boxes : List ℕ)
    (cells : List (Cell d)) (parameter : Fin d → ℚ) :
    List ℕ × List (Cell d) :=
  let a_cell := locateCell B parameter
  if isCellAlreadyInserted a_cell cells then
    (boxes, cells)
  else
    (append boxes (emitBox B ext a_cell), cells ++ [a_cell])

/-- The scan loop of `getBoxes`, carrying the running `boxes`/`cells`
state and the sample index. -/
def getBoxesGo (B : HBasis d) (ext : Fin d → ℕ) (params : ℕ → Fin d → ℚ)
    (threshold : ℚ) : List ℚ → ℕ → List ℕ × List (Cell d) → List ℕ × List (Cell d)
  | [], _, st => st
  | e :: es, index, st =>
    getBoxesGo B ext params threshold es (index + 1)
      (if threshold ≤ e then appendBox B ext st.1 st.2 (params index) else st)

/-- `getBoxes(errors, threshold)`: scan all samples in order and collect
one box per newly-seen flagged cell, starting from empty containers. -/
def getBoxes (B : HBasis d) (ext : Fin d → ℕ) (params : ℕ → Fin d → ℚ)
    (errors : List ℚ) (threshold : ℚ) : List ℕ :=
  (getBoxesGo B ext params threshold errors 0 ([], [])).1

/-- The parameter points of the samples flagged by the scan (error at or
above the threshold), in sample order, starting at a given index. -/
def flaggedParamsFrom (params : ℕ → Fin d → ℚ) (threshold : ℚ) :
    List ℚ → ℕ → List (Fin d → ℚ)
  | [], _ => []
  | e :: es, index =>
    if threshold ≤ e then
      params index :: flaggedParamsFrom params threshold es (index + 1)
    else
      flaggedParamsFrom params threshold es (index + 1)

/-- The finest-level cells of the flagged samples, in sample order. -/
def flaggedCells (B : HBasis d) (params : ℕ → Fin d → ℚ) (errors : List ℚ)
    (threshold : ℚ) : List (Cell d) :=
  (flaggedParamsFrom params threshold errors 0).map (locateCell B)

/-- Order-preserving first-occurrence deduplication against a seen set. -/
def freshCells {α : Type} [DecidableEq α] (seen : List α) : List α → List α
  | [] => []
  | c :: l =>
    if c ∈ seen then freshCells seen l
    else c :: freshCells (seen ++ [c]) l

/-- First-occurrence deduplication of a list. -/
def firstDedup {α : Type} [DecidableEq α] (l : List α) : List α :=
  freshCells [] l

/-- The ascending sort of the error field (`errorsCopy` fully ordered). -/
def sortedErrors (errors : List ℚ) : List ℚ :=
  errors.insertionSort (· ≤ ·)

/-- `setRefineThreshold`: copy the error field, take
`i = cast<T,size_t>(size() * (1.0 - m_ref))`, partially sort with
`std::nth_element` and dereference `begin() + i`.  The `nth_element`
postcondition makes `*(begin() + i)` the element of rank `i` of the
ascending sort; when `i` is out of range the dereference is past the end
(undefined behaviour), modelled by `none`. -/
def setRefineThreshold (m_ref : ℚ) (errors : List ℚ) : Option ℚ :=
  let i : ℕ := (⌊(errors.length : ℚ) * (1 - m_ref)⌋).toNat
  (sortedErrors errors)[i]?

/-- The driver state of `gsHFitting` that the refinement loop reads and
writes: the basis (opaque, type `β`), `m_pointErrors`, `m_max_error`, and
two ghost counters recording how many times the external fit
(`compute` + `computeErrors`) and `refineElements` were invoked. -/
structure HFState (β : Type) where
  basis : β
  pointErrors : List ℚ
  maxError : ℚ
  fits : ℕ
  refines : ℕ

/-- The fixed collaborators and configuration of one `gsHFitting`
instance: the query view of the basis, the structural refinement
primitive, the combined fit-and-measure step (`compute(m_lambda)`
followed by `computeErrors()`, returning the new error field and its
maximum), the parameter matrix columns, the extension `m_ext` and the
refinement percentage `m_ref`. -/
structure FitCtx (d : ℕ) (β : Type) where
  queries : β → HBasis d
  refineElements : β → List ℕ → β
  refit : β → List ℚ × ℚ
  params : ℕ → Fin d → ℚ
  ext : Fin d → ℕ
  m_ref : ℚ

/-- One `this->compute(m_lambda); this->computeErrors();` step: replace
the error field and statistics from the current basis and bump the ghost
fit counter. -/
def refitStep {β : Type} (C : FitCtx d β) (s : HFState β) : HFState β :=
  { s with
    pointErrors := (C.refit s.basis).1
    maxError := (C.refit s.basis).2
    fits := s.fits + 1 }

/-- The threshold used by `nextIteration`: an explicit non-negative
`err_threshold` verbatim, otherwise `setRefineThreshold(m_pointErrors)`. -/
def selectThreshold {β : Type} (C : FitCtx d β) (s : HFState β)
    (err_threshold : ℚ) : Option ℚ :=
  if 0 ≤ err_threshold then some err_threshold
  else setRefineThreshold C.m_ref s.pointErrors

/-- `nextIteration(tolerance, err_threshold)`: with a non-empty error
field and `m_max_error > tolerance`, select the threshold, build the
boxes, stop with `false` when none were produced, otherwise refine the
basis; with `m_max_error ≤ tolerance` stop with `false`; in the
remaining paths run one fit-and-measure step and return `true`.  `none`
models the undefined dereference inside `setRefineThreshold`. -/
def nextIteration {β : Type} (C : FitCtx d β) (s : HFState β)
    (tolerance err_threshold : ℚ) : Option (Bool × HFState β) :=
  if s.pointErrors.length ≠ 0 then
    if tolerance < s.maxError then
      match selectThreshold C s err_threshold with
      | none => none
      | some threshold =>
        let boxes := getBoxes (C.queries s.basis) C.ext C.params s.pointErrors threshold
        if boxes.length = 0 then
          some (false, s)
        else
          some (true, refitStep C
            { s with
              basis := C.refineElements s.basis boxes
              refines := s.refines + 1 })
    else
      some (false, s)
  else
    some (true, refitStep C s)

/-- The `for (i = 0; i < numIterations; i++)` loop of `iterativeRefine`:
call `nextIteration`, then break when `m_max_error ≤ tolerance` or when
no new iteration was performed. -/
def iterRefineLoop {β : Type} (C : FitCtx d β) (tolerance err_threshold : ℚ) :
    ℕ → HFState β → Option (HFState β)
  | 0, s => some s
  | n + 1, s =>
    match nextIteration C s tolerance err_threshold with
    | none => none
    | some (newIteration, s') =>
      if s'.maxError ≤ tolerance then some s'
      else if newIteration = false then some s'
      else iterRefineLoop C tolerance err_threshold n s'

/-- `iterativeRefine(numIterations, tolerance, err_threshold)`: a baseline
fit-and-measure when no error field exists yet, then the bounded loop. -/
def iterativeRefine {β : Type} (C : FitCtx d β) (s : HFState β)
    (numIterations : ℕ) (tolerance err_threshold : ℚ) : Option (HFState β) :=
  let s0 := if s.pointErrors.length = 0 then refitStep C s else s
  iterRefineLoop C tolerance err_threshold numIterations s0

/-! ## Concrete instances

A small one-dimensional configuration used to instantiate the general
theorems: two dyadic levels, a two-cell finest grid, a refinement counter
as the opaque basis state, and the point cloud of three samples. -/

/-- A well-formed one-dimensional basis view: `maxLevel = 1`, level-`l`
grids with `2^l` cells, midpoint locator, trivial structural query. -/
def sampleBasis : HBasis 1 where
  maxLevel := 1
  uFind := fun _ x => if x < 1 / 2 then 0 else 1
  query3 := fun _ _ _ => 0
  numBreaks := fun lvl _ => 2 ^ lvl + 1

/-- Parameter values: sample 0 in the left cell, the rest in the right. -/
def sampleParams : ℕ → Fin 1 → ℚ :=
  fun index _ => if index = 0 then 1 / 4 else 3 / 4

/-- A three-sample error field. -/
def sampleErrors : List ℚ := [5, 9, 1 / 100]

/-- Zero extension margin. -/
def sampleExt : Fin 1 → ℕ := fun _ => 0

/-- A fitting context over a refinement counter: each `refineElements`
bumps the counter, each fit yields the fixed error field `[1]`. -/
def sampleCtx : FitCtx 1 ℕ where
  queries := fun _ => sampleBasis
  refineElements := fun b _ => b + 1
  refit := fun _ => ([1], 1)
  params := sampleParams
  ext := sampleExt
  m_ref := 1 / 2

/-- A fitted driver state. -/
def sampleState : HFState ℕ where
  basis := 0
  pointErrors := [5, 9, 1 / 100]
  maxError := 9
  fits := 1
  refines := 0

/-- A state with no error field (no fit has happened yet). -/
def sampleStateUnfitted : HFState ℕ where
  basis := 0
  pointErrors := []
  maxError := 0
  fits := 0
  refines := 0

/-! ## Basic lemmas -/

theorem isCellAlreadyInserted_iff (a : Cell d) (cells : List (Cell d)) :
    isCellAlreadyInserted a cells = true ↔ a ∈ cells := by
  induction cells with
  | nil => simp [isCellAlreadyInserted]
  | cons c cs ih =>
    have hcard : ((Finset.univ.filter fun col => c col = a col).card = d) ↔ c = a := by
      constructor
      · intro h
        funext col
        have huniv : (Finset.univ.filter fun col => c col = a col) = Finset.univ :=
          Finset.eq_univ_of_card _ (by simpa using h)
        simpa using Finset.eq_univ_iff_forall.mp huniv col
      · intro h
        subst h
        simp
    simp only [isCellAlreadyInserted, List.mem_cons]
    split
    · next h =>
      have hca := hcard.mp h
      simp [hca.symm]
    · next h =>
      rw [ih]
      constructor
      · exact Or.inr
      · rintro (rfl | hm)
        · exact absurd (hcard.mpr rfl) h
        · exact hm

theorem mem_freshCells {α : Type} [DecidableEq α] (seen l : List α) (a : α) :
    a ∈ freshCells seen l ↔ a ∈ l ∧ a ∉ seen := by
  induction l generalizing seen with
  | nil => simp [freshCells]
  | cons c cs ih =>
    simp only [freshCells]
    split
    · next hc =>
      rw [ih]
      constructor
      · rintro ⟨h1, h2⟩
        exact ⟨List.mem_cons_of_mem _ h1, h2⟩
      · rintro ⟨h1, h2⟩
        rcases List.mem_cons.mp h1 with rfl | h1
        · exact absurd hc h2
        · exact ⟨h1, h2⟩
    · next hc =>
      rw [List.mem_cons, ih]
      constructor
      · rintro (rfl | ⟨h1, h2⟩)
        · exact ⟨List.mem_cons_self _ _, hc⟩
        · refine ⟨List.mem_cons_of_mem _ h1, fun hs => h2 ?_⟩
          simp [hs]
      · rintro ⟨h1, h2⟩
        by_cases hac : a = c
        · exact Or.inl hac
        · rcases List.mem_cons.mp h1 with h1 | h1
          · exact absurd h1 hac
          · refine Or.inr ⟨h1, fun hs => ?_⟩
            rcases List.mem_append.mp hs with hs | hs
            · exact h2 hs
            · exact hac (by simpa using hs)

theorem nodup_freshCells {α : Type} [DecidableEq α] (seen l : List α) :
    (freshCells seen l).Nodup := by
  induction l generalizing seen with
  | nil => simp [freshCells]
  | cons c cs ih =>
    simp only [freshCells]
    split
    · exact ih seen
    · refine List.nodup_cons.mpr ⟨?_, ih (seen ++ [c])⟩
      intro hmem
      rw [mem_freshCells] at hmem
      exact hmem.2 (by simp)

theorem mem_firstDedup {α : Type} [DecidableEq α] (l : List α) (a : α) :
    a ∈ firstDedup l ↔ a ∈ l := by
  rw [firstDedup, mem_freshCells]
  simp

theorem nodup_firstDedup {α : Type} [DecidableEq α] (l : List α) :
    (firstDedup l).Nodup :=
  nodup_freshCells [] l

/-- The scan loop of `getBoxes`, characterized: it appends one emitted
record per first-occurrence-fresh flagged cell, and records every fresh
cell in the seen set. -/
theorem getBoxesGo_eq (B : HBasis d) (ext : Fin d → ℕ) (params : ℕ → Fin d → ℚ)
    (threshold : ℚ) (errors : List ℚ) :
    ∀ (index : ℕ) (boxes : List ℕ) (cells : List (Cell d)),
      getBoxesGo B ext params threshold errors index (boxes, cells) =
        (boxes ++ ((freshCells cells
            ((flaggedParamsFrom params threshold errors index).map (locateCell B))).map
            (emitBox B ext)).flatten,
         cells ++ freshCells cells
            ((flaggedParamsFrom params threshold errors index).map (locateCell B))) := by
  induction errors with
  | nil =>
    intro index boxes cells
    simp [getBoxesGo, flaggedParamsFrom, freshCells]
  | cons e es ih =>
    intro index boxes cells
    simp only [getBoxesGo, flaggedParamsFrom]
    by_cases he : threshold ≤ e
    · rw [if_pos he, if_pos he]
      simp only [List.map_cons]
      by_cases hmem : locateCell B (params index) ∈ cells
      · have hins : isCellAlreadyInserted (locateCell B (params index)) cells = true :=
          (isCellAlreadyInserted_iff _ _).mpr hmem
        simp only [appendBox, hins, if_pos]
        rw [ih]
        simp only [freshCells, if_pos hmem]
      · have hins : isCellAlreadyInserted (locateCell B (params index)) cells = false := by
          rw [Bool.eq_false_iff]
          intro hcontra
          exact hmem ((isCellAlreadyInserted_iff _ _).mp hcontra)
        simp only [appendBox, hins, Bool.false_eq_true, if_neg, not_false_iff, append]
        rw [ih]
        simp only [freshCells, if_neg hmem]
        simp [List.append_assoc]
    · rw [if_neg he, if_neg he]
      exact ih (index + 1) boxes cells

/-- `getBoxes` emits exactly one record per distinct flagged finest-level
cell, in first-occurrence order. -/
theorem getBoxes_eq_flatten (B : HBasis d) (ext : Fin d → ℕ)
    (params : ℕ → Fin d → ℚ) (errors : List ℚ) (threshold : ℚ) :
    getBoxes B ext params errors threshold =
      ((firstDedup (flaggedCells B params errors threshold)).map (emitBox B ext)).flatten := by
  rw [getBoxes, getBoxesGo_eq]
  simp [firstDedup, flaggedCells]

/-- The assembled `box` vector, flattened, is the level followed by the
`d` lower bounds followed by the `d` upper bounds. -/
theorem emitBox_eq (B : HBasis d) (ext : Fin d → ℕ) (c : Cell d) :
    emitBox B ext c =
      cellLevel B c ::
        (List.ofFn (fun dim => boxLow B ext c (cellLevel B c) dim) ++
         List.ofFn (fun dim => boxUpp B ext c (cellLevel B c) dim)) := by
  apply List.ext_getElem
  · simp [emitBox]
    omega
  · intro n h1 h2
    simp only [emitBox, List.getElem_ofFn]
    rcases Nat.eq_zero_or_pos n with rfl | hn
    · simp [boxEntries]
    · obtain ⟨m, rfl⟩ : ∃ m, n = m + 1 := ⟨n - 1, by omega⟩
      rw [List.getElem_cons_succ]
      have hm : m < d + d := by
        simp only [emitBox, List.length_ofFn] at h1
        omega
      by_cases hlt : m < d
      · rw [List.getElem_append_left (by simpa using hlt)]
        simp only [List.getElem_ofFn]
        simp only [boxEntries]
        rw [dif_neg (by omega), dif_pos (by omega)]
        rfl
      · rw [List.getElem_append_right (by simpa using hlt)]
        simp only [List.getElem_ofFn, List.length_ofFn]
        simp only [boxEntries]
        rw [dif_neg (by omega), dif_neg (by omega)]
        rfl

/-- Every emitted record has length `2*d + 1`. -/
theorem emitBox_length (B : HBasis d) (ext : Fin d → ℕ) (c : Cell d) :
    (emitBox B ext c).length = 2 * d + 1 := by
  simp [emitBox]

/-- Iterated form of the dyadic-refinement invariant: going up `k` levels
multiplies the cell count by `2^k`. -/
theorem HBasis.WF.dyadic_pow {B : HBasis d} (wf : B.WF) (lvl k : ℕ) (i : Fin d) :
    B.numBreaks (lvl + k) i - 1 = 2 ^ k * (B.numBreaks lvl i - 1) := by
  induction k with
  | zero => simp
  | succ k ih =>
    have := wf.dyadic (lvl + k) i
    rw [show lvl + (k + 1) = (lvl + k) + 1 from rfl, this, ih]
    ring

/-- A finest-level index inside the finest grid reprojects, at any level,
to an index inside that level's grid. -/
theorem lowIndexAt_lt {B : HBasis d} (wf : B.WF) (c : Cell d) (lvl : ℕ)
    (dim : Fin d) (hc : c dim < B.numBreaks B.maxLevel dim - 1) :
    lowIndexAt B c lvl dim < B.numBreaks lvl dim - 1 := by
  unfold lowIndexAt
  split
  · next hlt =>
    rw [Nat.shiftRight_eq_div_pow]
    have hdy := wf.dyadic_pow lvl (B.maxLevel - lvl) dim
    rw [Nat.add_sub_cancel' (Nat.le_of_lt hlt)] at hdy
    rw [Nat.div_lt_iff_lt_mul (Nat.pos_pow_of_pos _ (by norm_num))]
    calc c dim < B.numBreaks B.maxLevel dim - 1 := hc
    _ = 2 ^ (B.maxLevel - lvl) * (B.numBreaks lvl dim - 1) := hdy
    _ = (B.numBreaks lvl dim - 1) * 2 ^ (B.maxLevel - lvl) := by ring
  · next hge =>
    rw [Nat.shiftLeft_eq]
    have hdy := wf.dyadic_pow B.maxLevel (lvl - B.maxLevel) dim
    rw [Nat.add_sub_cancel' (Nat.le_of_not_lt hge)] at hdy
    rw [hdy]
    have h2 : 0 < 2 ^ (lvl - B.maxLevel) := Nat.pos_pow_of_pos _ (by norm_num)
    calc c dim * 2 ^ (lvl - B.maxLevel)
        < (B.numBreaks B.maxLevel dim - 1) * 2 ^ (lvl - B.maxLevel) :=
          (Nat.mul_lt_mul_right h2).mpr hc
    _ = 2 ^ (lvl - B.maxLevel) * (B.numBreaks B.maxLevel dim - 1) := by ring

/-- Clamping: whenever the reprojected index is a valid cell index of its
level, the emitted bounds satisfy `low ≤ upp ≤ numBreaks - 1`, and they
are exactly the clamped extension formulas. -/
theorem boxLow_le_boxUpp (B : HBasis d) (ext : Fin d → ℕ) (c : Cell d)
    (lvl : ℕ) (dim : Fin d)
    (h : lowIndexAt B c lvl dim < B.numBreaks lvl dim - 1) :
    boxLow B ext c lvl dim ≤ boxUpp B ext c lvl dim ∧
    boxUpp B ext c lvl dim ≤ B.numBreaks lvl dim - 1 := by
  unfold boxLow boxUpp
  constructor
  · split <;> split <;> omega
  · split <;> omega

/-- The emitted lower bound is `max 0 (indexAtLevel - margin)` in `ℤ`. -/
theorem boxLow_eq_max (B : HBasis d) (ext : Fin d → ℕ) (c : Cell d)
    (lvl : ℕ) (dim : Fin d) :
    (boxLow B ext c lvl dim : ℤ) =
      max 0 ((lowIndexAt B c lvl dim : ℤ) - (ext dim : ℤ)) := by
  unfold boxLow
  split <;> next h => omega

/-- The emitted upper bound is `min (numBreaks - 1) (indexAtLevel + margin + 1)`. -/
theorem boxUpp_eq_min (B : HBasis d) (ext : Fin d → ℕ) (c : Cell d)
    (lvl : ℕ) (dim : Fin d) :
    boxUpp B ext c lvl dim =
      min (B.numBreaks lvl dim - 1) (lowIndexAt B c lvl dim + ext dim + 1) := by
  unfold boxUpp
  split <;> next h => omega

/-- Every cell flagged by the scan is the located cell of some parameter
point, so a well-formed locator keeps it inside the finest grid. -/
theorem flaggedCells_lt {B : HBasis d} (wf : B.WF) (params : ℕ → Fin d → ℚ)
    (errors : List ℚ) (threshold : ℚ) (c : Cell d)
    (hc : c ∈ flaggedCells B params errors threshold) (dim : Fin d) :
    c dim < B.numBreaks B.maxLevel dim - 1 := by
  rcases List.mem_map.mp hc with ⟨p, _, rfl⟩
  exact wf.uFind_lt dim (p dim)

/-- The sample basis satisfies the well-formedness assumptions. -/
theorem sampleBasis_wf : sampleBasis.WF := by
  constructor
  · intro i x
    show (if x < 1 / 2 then 0 else 1) < 2 ^ (1:ℕ) + 1 - 1
    split <;> norm_num
  · intro lvl i
    show 2 ^ (lvl + 1) + 1 - 1 = 2 * (2 ^ lvl + 1 - 1)
    rw [pow_succ]
    omega

/-! ## Driver computation lemmas -/

theorem nextIteration_converged {β : Type} (C : FitCtx d β) (s : HFState β)
    (tolerance err_threshold : ℚ) (hne : s.pointErrors.length ≠ 0)
    (hle : s.maxError ≤ tolerance) :
    nextIteration C s tolerance err_threshold = some (false, s) := by
  simp only [nextIteration, if_pos hne, if_neg (not_lt.mpr hle)]

theorem nextIteration_noBoxes {β : Type} (C : FitCtx d β) (s : HFState β)
    (tolerance err_threshold t : ℚ) (hne : s.pointErrors.length ≠ 0)
    (hgt : tolerance < s.maxError)
    (ht : selectThreshold C s err_threshold = some t)
    (hbox : getBoxes (C.queries s.basis) C.ext C.params s.pointErrors t = []) :
    nextIteration C s tolerance err_threshold = some (false, s) := by
  simp only [nextIteration, if_pos hne, if_pos hgt, ht, hbox]
  simp

theorem nextIteration_refine {β : Type} (C : FitCtx d β) (s : HFState β)
    (tolerance err_threshold t : ℚ) (hne : s.pointErrors.length ≠ 0)
    (hgt : tolerance < s.maxError)
    (ht : selectThreshold C s err_threshold = some t)
    (hbox : getBoxes (C.queries s.basis) C.ext C.params s.pointErrors t ≠ []) :
    nextIteration C s tolerance err_threshold =
      some (true, refitStep C
        { s with
          basis := C.refineElements s.basis
            (getBoxes (C.queries s.basis) C.ext C.params s.pointErrors t)
          refines := s.refines + 1 }) := by
  simp only [nextIteration, if_pos hne, if_pos hgt, ht]
  rw [if_neg (by rw [List.length_eq_zero]; exact hbox)]

theorem nextIteration_empty {β : Type} (C : FitCtx d β) (s : HFState β)
    (tolerance err_threshold : ℚ) (h0 : s.pointErrors.length = 0) :
    nextIteration C s tolerance err_threshold = some (true, refitStep C s) := by
  simp [nextIteration, h0]

theorem nextIteration_fits_mono {β : Type} (C : FitCtx d β) (s : HFState β)
    (tolerance err_threshold : ℚ) (b : Bool) (s' : HFState β)
    (h : nextIteration C s tolerance err_threshold = some (b, s')) :
    s.fits ≤ s'.fits := by
  simp only [nextIteration] at h
  split at h
  · split at h
    · split at h
      · cases h
      · split at h
        · cases h
          exact le_refl _
        · cases h
          exact Nat.le_succ _
    · cases h
      exact le_refl _
  · cases h
    exact Nat.le_succ _

theorem iterRefineLoop_fits_mono {β : Type} (C : FitCtx d β)
    (tolerance err_threshold : ℚ) :
    ∀ (n : ℕ) (s r : HFState β),
      iterRefineLoop C tolerance err_threshold n s = some r → s.fits ≤ r.fits := by
  intro n
  induction n with
  | zero =>
    intro s r h
    cases h
    exact le_refl _
  | succ n ih =>
    intro s r h
    cases hni : nextIteration C s tolerance err_threshold with
    | none =>
      rw [iterRefineLoop, hni] at h
      cases h
    | some bs =>
      obtain ⟨b, s'⟩ := bs
      rw [iterRefineLoop, hni] at h
      dsimp only at h
      have h1 : s.fits ≤ s'.fits :=
        nextIteration_fits_mono C s tolerance err_threshold b s' hni
      split at h
      · cases h
        exact h1
      · split at h
        · cases h
          exact h1
        · exact le_trans h1 (ih s' r h)

theorem iterRefineLoop_converged {β : Type} (C : FitCtx d β)
    (tolerance err_threshold : ℚ) (s : HFState β)
    (hne : s.pointErrors.length ≠ 0) (hle : s.maxError ≤ tolerance) :
    ∀ n : ℕ, iterRefineLoop C tolerance err_threshold n s = some s := by
  intro n
  cases n with
  | zero => rfl
  | succ n =>
    simp only [iterRefineLoop,
      nextIteration_converged C s tolerance err_threshold hne hle]
    simp [hle]

/-! ## Threshold-selector lemmas -/

theorem sortedErrors_sorted (errors : List ℚ) :
    (sortedErrors errors).Sorted (· ≤ ·) :=
  List.sorted_insertionSort _ errors

theorem sortedErrors_length (errors : List ℚ) :
    (sortedErrors errors).length = errors.length :=
  List.length_insertionSort _ errors

theorem mem_sortedErrors (errors : List ℚ) (x : ℚ) :
    x ∈ sortedErrors errors ↔ x ∈ errors :=
  List.mem_insertionSort _

theorem setRefineThreshold_eq_get (p : ℚ) (errors : List ℚ)
    (h : (⌊(errors.length : ℚ) * (1 - p)⌋).toNat < (sortedErrors errors).length) :
    setRefineThreshold p errors =
      some ((sortedErrors errors).get ⟨(⌊(errors.length : ℚ) * (1 - p)⌋).toNat, h⟩) := by
  simp [setRefineThreshold, List.getElem?_eq_getElem h]

/-! ## Claim theorems -/

/-- **C1** (amended).  For every non-empty error field of size `N` and
refinement percentage `p ∈ (0, 1]`, `setRefineThreshold` returns the
value of rank `⌊N·(1-p)⌋` in the ascending sort of the field; the result
is a member of the field, `p = 1` selects the minimum value, and every
`p ∈ (0, 1/N]` selects the maximum value.  The original claim's `p = 0`
edge is excluded: there the rank is `N`, one past the last valid rank,
and the source dereferences a past-the-end iterator (see the
counterexample theorem). -/
theorem setRefineThreshold_rank_spec (p : ℚ) (errors : List ℚ)
    (hne : errors ≠ []) (hp0 : 0 < p) (hp1 : p ≤ 1) :
    ∃ v : ℚ,
      setRefineThreshold p errors = some v ∧
      (sortedErrors errors)[(⌊(errors.length : ℚ) * (1 - p)⌋).toNat]? = some v ∧
      v ∈ errors ∧
      (p = 1 → ∀ x ∈ errors, v ≤ x) ∧
      (p ≤ 1 / (errors.length : ℚ) → ∀ x ∈ errors, x ≤ v) := by
  have hN : 0 < errors.length := List.length_pos.mpr hne
  have hNq : (0 : ℚ) < (errors.length : ℚ) := by exact_mod_cast hN
  have hx0 : (0 : ℚ) ≤ (errors.length : ℚ) * (1 - p) :=
    mul_nonneg (le_of_lt hNq) (by linarith)
  have hxN : (errors.length : ℚ) * (1 - p) < (errors.length : ℚ) := by nlinarith
  have hfl0 : 0 ≤ ⌊(errors.length : ℚ) * (1 - p)⌋ := Int.floor_nonneg.mpr hx0
  have hflN : ⌊(errors.length : ℚ) * (1 - p)⌋ < (errors.length : ℤ) :=
    Int.floor_lt.mpr (by exact_mod_cast hxN)
  have hi : (⌊(errors.length : ℚ) * (1 - p)⌋).toNat < (sortedErrors errors).length := by
    rw [sortedErrors_length]
    omega
  refine ⟨(sortedErrors errors).get ⟨_, hi⟩,
    setRefineThreshold_eq_get p errors hi, ?_, ?_, ?_, ?_⟩
  · simp [List.getElem?_eq_getElem hi]
  · rw [← mem_sortedErrors]
    exact List.get_mem _ _ hi
  · intro hp
    subst hp
    intro x hx
    obtain ⟨j, hj⟩ := List.get_of_mem ((mem_sortedErrors errors x).mpr hx)
    rw [← hj]
    apply (sortedErrors_sorted errors).rel_get_of_le
    rw [Fin.le_def]
    simp
  · intro hple x hx
    have hNp1 : (errors.length : ℚ) * p ≤ 1 := by
      calc (errors.length : ℚ) * p
          ≤ (errors.length : ℚ) * (1 / (errors.length : ℚ)) :=
            mul_le_mul_of_nonneg_left hple (le_of_lt hNq)
      _ = 1 := by field_simp
    have hNp0 : (0 : ℚ) < (errors.length : ℚ) * p := mul_pos hNq hp0
    have hfloor : ⌊(errors.length : ℚ) * (1 - p)⌋ = (errors.length : ℤ) - 1 := by
      rw [Int.floor_eq_iff]
      constructor
      · push_cast
        nlinarith
      · push_cast
        nlinarith
    obtain ⟨j, hj⟩ := List.get_of_mem ((mem_sortedErrors errors x).mpr hx)
    rw [← hj]
    apply (sortedErrors_sorted errors).rel_get_of_le
    rw [Fin.le_def]
    have hjv : j.val < errors.length :=
      lt_of_lt_of_eq j.isLt (sortedErrors_length errors)
    show j.val ≤ (⌊(errors.length : ℚ) * (1 - p)⌋).toNat
    rw [hfloor]
    omega

/-- **C1**, counterexample to the claim as stated: at `p = 0` the claimed
rank is `N`, which is out of range, so the selector does not return the
maximum value (the source's behaviour at that rank is a past-the-end
dereference, modelled as `none`). -/
theorem setRefineThreshold_p0_cex :
    setRefineThreshold 0 [(1 : ℚ)] = none ∧ setRefineThreshold 0 [(1 : ℚ)] ≠ some 1 := by
  have h : setRefineThreshold 0 [(1 : ℚ)] = none := by
    norm_num [setRefineThreshold, sortedErrors, List.insertionSort, List.orderedInsert]
  exact ⟨h, by rw [h]; exact fun hc => Option.noConfusion hc⟩

/-- **C1**, witness: the amended theorem applied to the concrete field
`[3, 1, 2]` at `p = 1`. -/
theorem setRefineThreshold_rank_spec_witness :
    ([(3 : ℚ), 1, 2] ≠ []) ∧ (0 : ℚ) < 1 ∧ (1 : ℚ) ≤ 1 ∧
    (∃ v : ℚ,
      setRefineThreshold 1 [(3 : ℚ), 1, 2] = some v ∧
      (sortedErrors [(3 : ℚ), 1, 2])[(⌊(([(3 : ℚ), 1, 2].length : ℚ)) * (1 - 1)⌋).toNat]? =
        some v ∧
      v ∈ [(3 : ℚ), 1, 2] ∧
      ((1 : ℚ) = 1 → ∀ x ∈ [(3 : ℚ), 1, 2], v ≤ x) ∧
      ((1 : ℚ) ≤ 1 / (([(3 : ℚ), 1, 2].length : ℚ)) → ∀ x ∈ [(3 : ℚ), 1, 2], x ≤ v)) :=
  ⟨by simp, by norm_num, le_refl 1,
    setRefineThreshold_rank_spec 1 [(3 : ℚ), 1, 2] (by simp) (by norm_num) (le_refl 1)⟩

/-- **C2**.  With a non-empty error field, `nextIteration` returns
`false` exactly when the stored maximum error is at most the tolerance or
the box list built at the selected threshold is empty; in both `false`
cases the entire state (in particular the basis) is unchanged, and when
it returns `true` the basis was refined with the built boxes and exactly
one fit-and-measure step was performed on it. -/
theorem nextIteration_stop_spec {β : Type} (C : FitCtx d β) (s : HFState β)
    (tolerance err_threshold t : ℚ)
    (hne : s.pointErrors.length ≠ 0)
    (ht : selectThreshold C s err_threshold = some t) :
    (s.maxError ≤ tolerance →
      nextIteration C s tolerance err_threshold = some (false, s)) ∧
    (tolerance < s.maxError →
      getBoxes (C.queries s.basis) C.ext C.params s.pointErrors t = [] →
      nextIteration C s tolerance err_threshold = some (false, s)) ∧
    (tolerance < s.maxError →
      getBoxes (C.queries s.basis) C.ext C.params s.pointErrors t ≠ [] →
      nextIteration C s tolerance err_threshold =
        some (true, refitStep C
          { s with
            basis := C.refineElements s.basis
              (getBoxes (C.queries s.basis) C.ext C.params s.pointErrors t)
            refines := s.refines + 1 })) ∧
    (∀ (b : Bool) (s' : HFState β),
      nextIteration C s tolerance err_threshold = some (b, s') →
      (b = false ↔ s.maxError ≤ tolerance ∨
        getBoxes (C.queries s.basis) C.ext C.params s.pointErrors t = [])) := by
  refine ⟨fun hle => nextIteration_converged C s _ _ hne hle,
    fun hgt hbox => nextIteration_noBoxes C s _ _ t hne hgt ht hbox,
    fun hgt hbox => nextIteration_refine C s _ _ t hne hgt ht hbox, ?_⟩
  intro b s' heq
  by_cases hgt : tolerance < s.maxError
  · by_cases hbox : getBoxes (C.queries s.basis) C.ext C.params s.pointErrors t = []
    · rw [nextIteration_noBoxes C s _ _ t hne hgt ht hbox] at heq
      cases heq
      simp [hbox]
    · rw [nextIteration_refine C s _ _ t hne hgt ht hbox] at heq
      cases heq
      simp [hbox, not_le.mpr hgt]
  · rw [nextIteration_converged C s _ _ hne (not_lt.mp hgt)] at heq
    cases heq
    simp [not_lt.mp hgt]

/-- **C2**, witness: the specification applied to the concrete fitted
sample state, with its hypotheses discharged. -/
theorem nextIteration_stop_spec_witness :
    sampleState.pointErrors.length ≠ 0 ∧
    selectThreshold sampleCtx sampleState (1 / 2) = some (1 / 2) ∧
    ((sampleState.maxError ≤ 1 →
      nextIteration sampleCtx sampleState 1 (1 / 2) = some (false, sampleState)) ∧
    (1 < sampleState.maxError →
      getBoxes (sampleCtx.queries sampleState.basis) sampleCtx.ext sampleCtx.params
          sampleState.pointErrors (1 / 2) = [] →
      nextIteration sampleCtx sampleState 1 (1 / 2) = some (false, sampleState)) ∧
    (1 < sampleState.maxError →
      getBoxes (sampleCtx.queries sampleState.basis) sampleCtx.ext sampleCtx.params
          sampleState.pointErrors (1 / 2) ≠ [] →
      nextIteration sampleCtx sampleState 1 (1 / 2) =
        some (true, refitStep sampleCtx
          { sampleState with
            basis := sampleCtx.refineElements sampleState.basis
              (getBoxes (sampleCtx.queries sampleState.basis) sampleCtx.ext sampleCtx.params
                sampleState.pointErrors (1 / 2))
            refines := sampleState.refines + 1 })) ∧
    (∀ (b : Bool) (s' : HFState ℕ),
      nextIteration sampleCtx sampleState 1 (1 / 2) = some (b, s') →
      (b = false ↔ sampleState.maxError ≤ 1 ∨
        getBoxes (sampleCtx.queries sampleState.basis) sampleCtx.ext sampleCtx.params
          sampleState.pointErrors (1 / 2) = []))) :=
  ⟨by simp [sampleState], by norm_num [selectThreshold],
    nextIteration_stop_spec sampleCtx sampleState 1 (1 / 2) (1 / 2)
      (by simp [sampleState]) (by norm_num [selectThreshold])⟩

/-- **C3**.  Within one call to `getBoxes`, at most one box is emitted
per distinct finest-level cell: the output is the concatenation of one
record per entry of the duplicate-free first-occurrence deduplication of
the flagged cells; every distinct flagged cell keeps its own record, so
identical records arising from distinct cells are not merged. -/
theorem getBoxes_cell_dedup (B : HBasis d) (ext : Fin d → ℕ)
    (params : ℕ → Fin d → ℚ) (errors : List ℚ) (threshold : ℚ) :
    getBoxes B ext params errors threshold =
      ((firstDedup (flaggedCells B params errors threshold)).map (emitBox B ext)).flatten ∧
    (firstDedup (flaggedCells B params errors threshold)).Nodup ∧
    ∀ a : Cell d, a ∈ firstDedup (flaggedCells B params errors threshold) ↔
      a ∈ flaggedCells B params errors threshold :=
  ⟨getBoxes_eq_flatten B ext params errors threshold,
    nodup_firstDedup _,
    fun a => mem_firstDedup _ a⟩

/-- **C3**, witness: the invariant instantiated on the concrete sample
configuration. -/
theorem getBoxes_cell_dedup_witness :
    getBoxes sampleBasis sampleExt sampleParams sampleErrors (1 / 2) =
      ((firstDedup (flaggedCells sampleBasis sampleParams sampleErrors (1 / 2))).map
        (emitBox sampleBasis sampleExt)).flatten ∧
    (firstDedup (flaggedCells sampleBasis sampleParams sampleErrors (1 / 2))).Nodup ∧
    ∀ a : Cell 1, a ∈ firstDedup (flaggedCells sampleBasis sampleParams sampleErrors (1 / 2)) ↔
      a ∈ flaggedCells sampleBasis sampleParams sampleErrors (1 / 2) :=
  getBoxes_cell_dedup sampleBasis sampleExt sampleParams sampleErrors (1 / 2)

/-- **C4**.  For a well-formed basis, every record emitted by `getBoxes`
satisfies the clamping invariant in every dimension:
`low ≤ upp ≤ numBreaks(level) - 1`, with
`low = max 0 (indexAtLevel - margin)` and
`upp = min (numBreaks(level) - 1) (indexAtLevel + margin + 1)`. -/
theorem getBoxes_clamping (B : HBasis d) (ext : Fin d → ℕ)
    (params : ℕ → Fin d → ℚ) (errors : List ℚ) (threshold : ℚ) (wf : B.WF) :
    getBoxes B ext params errors threshold =
      ((firstDedup (flaggedCells B params errors threshold)).map (emitBox B ext)).flatten ∧
    ∀ c ∈ firstDedup (flaggedCells B params errors threshold), ∀ dim : Fin d,
      boxLow B ext c (cellLevel B c) dim ≤ boxUpp B ext c (cellLevel B c) dim ∧
      boxUpp B ext c (cellLevel B c) dim ≤ B.numBreaks (cellLevel B c) dim - 1 ∧
      (boxLow B ext c (cellLevel B c) dim : ℤ) =
        max 0 ((lowIndexAt B c (cellLevel B c) dim : ℤ) - (ext dim : ℤ)) ∧
      boxUpp B ext c (cellLevel B c) dim =
        min (B.numBreaks (cellLevel B c) dim - 1)
          (lowIndexAt B c (cellLevel B c) dim + ext dim + 1) := by
  refine ⟨getBoxes_eq_flatten B ext params errors threshold, fun c hc dim => ?_⟩
  have hcell : c dim < B.numBreaks B.maxLevel dim - 1 :=
    flaggedCells_lt wf params errors threshold c ((mem_firstDedup _ c).mp hc) dim
  have hidx := lowIndexAt_lt wf c (cellLevel B c) dim hcell
  obtain ⟨h1, h2⟩ := boxLow_le_boxUpp B ext c (cellLevel B c) dim hidx
  exact ⟨h1, h2, boxLow_eq_max B ext c (cellLevel B c) dim,
    boxUpp_eq_min B ext c (cellLevel B c) dim⟩

/-- **C4**, witness: the clamping invariant applied to the concrete
well-formed sample basis. -/
theorem getBoxes_clamping_witness :
    sampleBasis.WF ∧
    ∀ c ∈ firstDedup (flaggedCells sampleBasis sampleParams sampleErrors (1 / 2)),
      ∀ dim : Fin 1,
      boxLow sampleBasis sampleExt c (cellLevel sampleBasis c) dim ≤
        boxUpp sampleBasis sampleExt c (cellLevel sampleBasis c) dim ∧
      boxUpp sampleBasis sampleExt c (cellLevel sampleBasis c) dim ≤
        sampleBasis.numBreaks (cellLevel sampleBasis c) dim - 1 :=
  ⟨sampleBasis_wf,
    fun c hc dim =>
      ⟨((getBoxes_clamping sampleBasis sampleExt sampleParams sampleErrors (1 / 2)
          sampleBasis_wf).2 c hc dim).1,
        ((getBoxes_clamping sampleBasis sampleExt sampleParams sampleErrors (1 / 2)
          sampleBasis_wf).2 c hc dim).2.1⟩⟩

/-- **C5**.  `getBoxes` attempts a box exactly for the samples whose
error is at or above the threshold (`threshold ≤ errors[index]`,
inclusive), scanned in sample order — these are the samples collected by
`flaggedParamsFrom` — and each emitted record is flat of length `2d+1`,
laid out as the level followed by the `d` lower bounds followed by the
`d` upper bounds, records appended in discovery order. -/
theorem getBoxes_scan_layout (B : HBasis d) (ext : Fin d → ℕ)
    (params : ℕ → Fin d → ℚ) (errors : List ℚ) (threshold : ℚ) :
    getBoxes B ext params errors threshold =
      ((firstDedup ((flaggedParamsFrom params threshold errors 0).map (locateCell B))).map
        (emitBox B ext)).flatten ∧
    (∀ c : Cell d, emitBox B ext c =
      cellLevel B c ::
        (List.ofFn (fun dim => boxLow B ext c (cellLevel B c) dim) ++
         List.ofFn (fun dim => boxUpp B ext c (cellLevel B c) dim))) ∧
    (∀ c : Cell d, (emitBox B ext c).length = 2 * d + 1) :=
  ⟨getBoxes_eq_flatten B ext params errors threshold,
    fun c => emitBox_eq B ext c,
    fun c => emitBox_length B ext c⟩

/-- **C5**, witness: the scan/layout characterization instantiated on the
concrete sample configuration. -/
theorem getBoxes_scan_layout_witness :
    getBoxes sampleBasis sampleExt sampleParams sampleErrors (1 / 2) =
      ((firstDedup ((flaggedParamsFrom sampleParams (1 / 2) sampleErrors 0).map
        (locateCell sampleBasis))).map (emitBox sampleBasis sampleExt)).flatten ∧
    (∀ c : Cell 1, emitBox sampleBasis sampleExt c =
      cellLevel sampleBasis c ::
        (List.ofFn (fun dim => boxLow sampleBasis sampleExt c (cellLevel sampleBasis c) dim) ++
         List.ofFn (fun dim => boxUpp sampleBasis sampleExt c (cellLevel sampleBasis c) dim))) ∧
    (∀ c : Cell 1, (emitBox sampleBasis sampleExt c).length = 2 * 1 + 1) :=
  getBoxes_scan_layout sampleBasis sampleExt sampleParams sampleErrors (1 / 2)

/-- **C6**.  Every record emitted by `getBoxes` carries, as its level
entry, the result of the structural range query over the cell's
half-open finest-level index range with the finest level as search
bound, plus exactly one — single-level incremental refinement. -/
theorem emitBox_level_increment (B : HBasis d) (ext : Fin d → ℕ)
    (params : ℕ → Fin d → ℚ) (errors : List ℚ) (threshold : ℚ) :
    getBoxes B ext params errors threshold =
      ((firstDedup (flaggedCells B params errors threshold)).map (emitBox B ext)).flatten ∧
    ∀ c : Cell d, (emitBox B ext c).head? =
      some (B.query3 c (fun i => c i + 1) B.maxLevel + 1) := by
  refine ⟨getBoxes_eq_flatten B ext params errors threshold, fun c => ?_⟩
  rw [emitBox_eq]
  rfl

/-- **C6**, witness: instantiated on the concrete sample configuration. -/
theorem emitBox_level_increment_witness :
    getBoxes sampleBasis sampleExt sampleParams sampleErrors (1 / 2) =
      ((firstDedup (flaggedCells sampleBasis sampleParams sampleErrors (1 / 2))).map
        (emitBox sampleBasis sampleExt)).flatten ∧
    ∀ c : Cell 1, (emitBox sampleBasis sampleExt c).head? =
      some (sampleBasis.query3 c (fun i => c i + 1) sampleBasis.maxLevel + 1) :=
  emitBox_level_increment sampleBasis sampleExt sampleParams sampleErrors (1 / 2)

/-- **C7**.  The reprojection of a finest-level cell index onto the
resolved level is the right shift by `maxLvl - L` — division by
`2^(maxLvl-L)` — when `L < maxLvl`, and the left shift by `L - maxLvl` —
multiplication by `2^(L-maxLvl)` — when `L ≥ maxLvl`. -/
theorem lowIndexAt_reprojection (B : HBasis d) (c : Cell d) (lvl : ℕ) (dim : Fin d) :
    lowIndexAt B c lvl dim =
      if lvl < B.maxLevel then c dim / 2 ^ (B.maxLevel - lvl)
      else c dim * 2 ^ (lvl - B.maxLevel) := by
  by_cases h : lvl < B.maxLevel
  · simp only [lowIndexAt, if_pos h, Nat.shiftRight_eq_div_pow]
  · simp only [lowIndexAt, if_neg h, Nat.shiftLeft_eq]

/-- **C7**, witness: the coarsening reprojection evaluated on the sample
basis (`maxLevel = 1`), at level `0` and finest index `3`. -/
theorem lowIndexAt_reprojection_witness :
    lowIndexAt sampleBasis (fun _ => 3) 0 0 = 3 / 2 ^ 1 := by
  rw [lowIndexAt_reprojection]
  rfl

/-- **C8**.  Holding the basis, parameters, errors and threshold fixed,
enlarging the extension margin pointwise never shrinks any emitted box:
both runs emit one record for the same cells in the same order, and the
per-dimension width `upp - low` is pointwise non-decreasing. -/
theorem getBoxes_extension_monotone (B : HBasis d) (ext ext' : Fin d → ℕ)
    (params : ℕ → Fin d → ℚ) (errors : List ℚ) (threshold : ℚ)
    (h : ∀ i, ext i ≤ ext' i) :
    getBoxes B ext params errors threshold =
      ((firstDedup (flaggedCells B params errors threshold)).map (emitBox B ext)).flatten ∧
    getBoxes B ext' params errors threshold =
      ((firstDedup (flaggedCells B params errors threshold)).map (emitBox B ext')).flatten ∧
    ∀ c ∈ firstDedup (flaggedCells B params errors threshold), ∀ dim : Fin d,
      boxUpp B ext c (cellLevel B c) dim - boxLow B ext c (cellLevel B c) dim ≤
      boxUpp B ext' c (cellLevel B c) dim - boxLow B ext' c (cellLevel B c) dim := by
  refine ⟨getBoxes_eq_flatten B ext params errors threshold,
    getBoxes_eq_flatten B ext' params errors threshold, fun c _ dim => ?_⟩
  have hext := h dim
  have hlow : boxLow B ext' c (cellLevel B c) dim ≤ boxLow B ext c (cellLevel B c) dim := by
    unfold boxLow
    split <;> split <;> omega
  have hupp : boxUpp B ext c (cellLevel B c) dim ≤ boxUpp B ext' c (cellLevel B c) dim := by
    unfold boxUpp
    split <;> split <;> omega
  omega

/-- **C8**, witness: monotonicity applied with the zero margin against
the all-ones margin on the concrete sample configuration. -/
theorem getBoxes_extension_monotone_witness :
    (∀ i : Fin 1, sampleExt i ≤ 1) ∧
    ∀ c ∈ firstDedup (flaggedCells sampleBasis sampleParams sampleErrors (1 / 2)),
      ∀ dim : Fin 1,
      boxUpp sampleBasis sampleExt c (cellLevel sampleBasis c) dim -
        boxLow sampleBasis sampleExt c (cellLevel sampleBasis c) dim ≤
      boxUpp sampleBasis (fun _ => 1) c (cellLevel sampleBasis c) dim -
        boxLow sampleBasis (fun _ => 1) c (cellLevel sampleBasis c) dim :=
  ⟨fun i => by norm_num [sampleExt],
    (getBoxes_extension_monotone sampleBasis sampleExt (fun _ => 1) sampleParams
      sampleErrors (1 / 2) (fun i => by norm_num [sampleExt])).2.2⟩

/-- **C9**.  When no error field exists yet, `iterativeRefine` performs
one baseline fit-and-measure before any refinement decision — even with
an iteration budget of zero the result is exactly the baseline-fitted
state — and every successful run performs at least that one fit.  When
in addition the tolerance dominates every achievable maximum error
(the `tolerance = +∞` reading) the run returns the baseline-fitted state
for every budget: exactly one fit, and no refinement ever triggered. -/
theorem iterativeRefine_baseline {β : Type} (C : FitCtx d β) (s : HFState β)
    (tolerance err_threshold : ℚ) (h0 : s.pointErrors.length = 0) :
    iterativeRefine C s 0 tolerance err_threshold = some (refitStep C s) ∧
    (refitStep C s).fits = s.fits + 1 ∧
    (refitStep C s).refines = s.refines ∧
    (refitStep C s).basis = s.basis ∧
    (∀ (n : ℕ) (r : HFState β),
      iterativeRefine C s n tolerance err_threshold = some r → s.fits + 1 ≤ r.fits) ∧
    ((∀ b : β, (C.refit b).1 ≠ []) → (∀ b : β, (C.refit b).2 ≤ tolerance) →
      ∀ n : ℕ, iterativeRefine C s n tolerance err_threshold = some (refitStep C s)) := by
  refine ⟨?_, rfl, rfl, rfl, ?_, ?_⟩
  · simp only [iterativeRefine, if_pos h0]
    rfl
  · intro n r h
    simp only [iterativeRefine, if_pos h0] at h
    have hmono := iterRefineLoop_fits_mono C tolerance err_threshold n (refitStep C s) r h
    simpa [refitStep] using hmono
  · intro hne hinf n
    simp only [iterativeRefine, if_pos h0]
    apply iterRefineLoop_converged
    · show (refitStep C s).pointErrors.length ≠ 0
      simp only [refitStep]
      intro hc
      exact hne s.basis (List.length_eq_zero.mp hc)
    · exact hinf s.basis

/-- **C9**, witness: the baseline-and-termination behaviour on the
concrete unfitted sample state, with all hypotheses discharged (the
context's fit always produces the non-empty field `[1]` with maximum
`1 ≤ 5`). -/
theorem iterativeRefine_baseline_witness :
    sampleStateUnfitted.pointErrors.length = 0 ∧
    (∀ b : ℕ, (sampleCtx.refit b).1 ≠ []) ∧
    (∀ b : ℕ, (sampleCtx.refit b).2 ≤ 5) ∧
    iterativeRefine sampleCtx sampleStateUnfitted 0 5 (-1) =
      some (refitStep sampleCtx sampleStateUnfitted) ∧
    (∀ n : ℕ, iterativeRefine sampleCtx sampleStateUnfitted n 5 (-1) =
      some (refitStep sampleCtx sampleStateUnfitted)) ∧
    (refitStep sampleCtx sampleStateUnfitted).fits = sampleStateUnfitted.fits + 1 ∧
    (refitStep sampleCtx sampleStateUnfitted).refines = sampleStateUnfitted.refines :=
  ⟨rfl, fun _ => by simp [sampleCtx], fun _ => by norm_num [sampleCtx],
    (iterativeRefine_baseline sampleCtx sampleStateUnfitted 5 (-1) rfl).1,
    (iterativeRefine_baseline sampleCtx sampleStateUnfitted 5 (-1) rfl).2.2.2.2.2
      (fun _ => by simp [sampleCtx]) (fun _ => by norm_num [sampleCtx]),
    (iterativeRefine_baseline sampleCtx sampleStateUnfitted 5 (-1) rfl).2.1,
    (iterativeRefine_baseline sampleCtx sampleStateUnfitted 5 (-1) rfl).2.2.1⟩

/-- **C10**.  On a state with an empty error field (no fit yet), for any
tolerance and threshold argument, `nextIteration` performs exactly one
fit-and-measure step (ghost fit counter incremented once), selects no
threshold, builds no boxes, leaves the basis and the refinement counter
untouched, and returns `true`. -/
theorem nextIteration_unfitted {β : Type} (C : FitCtx d β) (s : HFState β)
    (tolerance err_threshold : ℚ) (h0 : s.pointErrors.length = 0) :
    nextIteration C s tolerance err_threshold = some (true, refitStep C s) ∧
    (refitStep C s).fits = s.fits + 1 ∧
    (refitStep C s).refines = s.refines ∧
    (refitStep C s).basis = s.basis ∧
    (refitStep C s).pointErrors = (C.refit s.basis).1 ∧
    (refitStep C s).maxError = (C.refit s.basis).2 :=
  ⟨nextIteration_empty C s tolerance err_threshold h0, rfl, rfl, rfl, rfl, rfl⟩

/-- **C10**, witness: the unfitted step on the concrete sample state,
with a negative threshold sentinel (threshold selection never runs). -/
theorem nextIteration_unfitted_witness :
    sampleStateUnfitted.pointErrors.length = 0 ∧
    nextIteration sampleCtx sampleStateUnfitted 0 (-1) =
      some (true, refitStep sampleCtx sampleStateUnfitted) ∧
    (refitStep sampleCtx sampleStateUnfitted).fits = sampleStateUnfitted.fits + 1 ∧
    (refitStep sampleCtx sampleStateUnfitted).refines = sampleStateUnfitted.refines ∧
    (refitStep sampleCtx sampleStateUnfitted).basis = sampleStateUnfitted.basis :=
  ⟨rfl, (nextIteration_unfitted sampleCtx sampleStateUnfitted 0 (-1) rfl).1,
    (nextIteration_unfitted sampleCtx sampleStateUnfitted 0 (-1) rfl).2.1,
    (nextIteration_unfitted sampleCtx sampleStateUnfitted 0 (-1) rfl).2.2.1,
    (nextIteration_unfitted sampleCtx sampleStateUnfitted 0 (-1) rfl).2.2.2.1⟩

end GismoHFitting
